import Mathlib

/-!
Verification of the Wolia grid engine (`src/engine-modules/grid-engine`).

The Rust sources are shallowly embedded: strings are lists of characters
(ASCII-faithful), `usize` is `Nat`, `f64`/`f32` are modelled by exact
rationals `ℚ` (the claims under scrutiny only involve values where `f64`
arithmetic is exact), `IndexMap` storage is modelled by its key-to-value
map view, and fallible operations return `Option`/`Except`.
-/

set_option maxHeartbeats 1000000

namespace Wolia

/-- A cell reference: 0-based row and column (`cell.rs`, `CellRef`). -/
structure CellRef where
  row : Nat
  col : Nat
deriving DecidableEq, Repr

/-- `CellRef::new` (`cell.rs`). -/
def CellRef.new (row col : Nat) : CellRef := ⟨row, col⟩

/-- Rust `str::trim`, modelled on lists of characters. Lean's
`Char.isWhitespace` covers the ASCII whitespace characters. -/
def trimChars (l : List Char) : List Char :=
  ((l.dropWhile Char.isWhitespace).reverse.dropWhile Char.isWhitespace).reverse

/-- The column-letter loop of `CellRef::parse` (`cell.rs`): consume leading
ASCII-alphabetic characters, accumulating `col = col * 26 + (c - 'A' + 1)`;
return the accumulated value and the remaining characters. Lean's
`Char.isAlpha` is exactly Rust's `char::is_ascii_alphabetic`. -/
def parseColLoop : List Char → Nat → Nat × List Char
  | [], acc => (acc, [])
  | c :: cs, acc =>
    if c.isAlpha then parseColLoop cs (acc * 26 + (c.toNat - 65 + 1))
    else (acc, c :: cs)

/-- Digit-sequence value used by `usize::from_str`: `none` unless the
input is one or more ASCII digits; otherwise the base-10 value. -/
def digitsToNat (l : List Char) : Option Nat :=
  if l.isEmpty then none
  else if l.all Char.isDigit then
    some (l.foldl (fun a c => a * 10 + (c.toNat - 48)) 0)
  else none

/-- Rust `str::parse::<usize>()` (`usize::from_str`): an optional leading
`+` sign followed by one or more ASCII digits (`usize` is modelled by
`Nat`, so the overflow failure case does not arise). -/
def parseUsize (l : List Char) : Option Nat :=
  match l with
  | '+' :: rest => digitsToNat rest
  | _ => digitsToNat l

/-- `CellRef::parse` (`cell.rs`): trim, uppercase, consume column letters
as bijective base-26, then parse the 1-based row number; `None` if there
are no letters, the row digits are malformed, or the row is zero. -/
def CellRef.parse (s : List Char) : Option CellRef :=
  let t := (trimChars s).map Char.toUpper
  match parseColLoop t 0 with
  | (col, rest) =>
    if col = 0 then none
    else
      match parseUsize rest with
      | none => none
      | some row => if row = 0 then none else some ⟨row - 1, col - 1⟩

/-- The column-letter loop of `CellRef::to_a1` (`cell.rs`): while `col > 0`,
decrement, prepend `'A' + col % 26`, divide by 26. -/
def colLetters : Nat → List Char
  | 0 => []
  | n + 1 => colLetters (n / 26) ++ [Char.ofNat (65 + n % 26)]
decreasing_by exact Nat.lt_succ_of_le (Nat.div_le_self n 26)

/-- Decimal digit characters of a natural number (Rust `format!` for
`usize`). -/
def natDigits (n : Nat) : List Char :=
  if n < 10 then [Char.ofNat (48 + n)]
  else natDigits (n / 10) ++ [Char.ofNat (48 + n % 10)]
decreasing_by exact Nat.div_lt_self (by omega) (by omega)

/-- `CellRef::to_a1` (`cell.rs`): bijective base-26 column letters of
`col + 1` followed by the decimal digits of `row + 1`. -/
def CellRef.to_a1 (r : CellRef) : List Char :=
  colLetters (r.col + 1) ++ natDigits (r.row + 1)

/-! The value model (`cell.rs`). -/

/-- Sign handling of Rust numeric `from_str`: an optional leading `+` or
`-`; returns whether the value is negated and the remaining characters. -/
def splitSign : List Char → Bool × List Char
  | '+' :: rest => (false, rest)
  | '-' :: rest => (true, rest)
  | l => (false, l)

/-- Base-10 value of a digit list, as a rational. -/
def digitsQ (l : List Char) : ℚ :=
  l.foldl (fun a c => a * 10 + ((c.toNat - 48 : Nat) : ℚ)) 0

/-- Base-10 value of a digit list, as a natural number. -/
def digitsN (l : List Char) : Nat :=
  l.foldl (fun a c => a * 10 + (c.toNat - 48)) 0

/-- An `f64` value as classified by the evaluator's aggregation code: a
finite value (embedded as `ℚ`, the declared rational idealization — binary
rounding is the only aspect dropped), one of the two infinities, or NaN. -/
inductive F64 where
  | finite (q : ℚ)
  | posInf
  | negInf
  | nan
deriving DecidableEq, Repr

/-- The finite (rational) part of an `f64` value, if any. -/
def F64.toFinite : F64 → Option ℚ
  | .finite q => some q
  | _ => none

/-- Rust `f64::is_infinite`. -/
def F64.is_infinite : F64 → Bool
  | .posInf => true
  | .negInf => true
  | _ => false

/-- Rust `f64::max` (IEEE 754 maxNum): NaN-ignoring maximum. -/
def F64.max : F64 → F64 → F64
  | .nan, b => b
  | a, .nan => a
  | .posInf, _ => .posInf
  | _, .posInf => .posInf
  | .negInf, b => b
  | a, .negInf => a
  | .finite a, .finite b => .finite (Max.max a b)

/-- Rust `f64::min` (IEEE 754 minNum): NaN-ignoring minimum. -/
def F64.min : F64 → F64 → F64
  | .nan, b => b
  | a, .nan => a
  | .negInf, _ => .negInf
  | _, .negInf => .negInf
  | .posInf, b => b
  | a, .posInf => a
  | .finite a, .finite b => .finite (Min.min a b)

/-- The finite-literal fragment of Rust `str::parse::<f64>()`: optional
sign, a mantissa `digits[.digits]` or `.digits` with at least one digit,
and an optional exponent `e|E [sign] digits`; anything else fails. -/
def parseFiniteFloat (s : List Char) : Option ℚ :=
  let (neg, s1) := splitSign s
  let ip := s1.takeWhile Char.isDigit
  let rest1 := s1.dropWhile Char.isDigit
  let (fp, rest2) :=
    match rest1 with
    | '.' :: r => (r.takeWhile Char.isDigit, r.dropWhile Char.isDigit)
    | _ => (([] : List Char), rest1)
  if ip.length + fp.length = 0 then none
  else
    let mant : ℚ := digitsQ ip + digitsQ fp / (10 : ℚ) ^ fp.length
    match rest2 with
    | [] => some (if neg then -mant else mant)
    | e :: r =>
      if e = 'e' ∨ e = 'E' then
        let (eneg, r1) := splitSign r
        if r1 ≠ [] ∧ r1.all Char.isDigit then
          let ex : ℚ := (10 : ℚ) ^ digitsN r1
          let v := if eneg then mant / ex else mant * ex
          some (if neg then -v else v)
        else none
      else none

/-- Rust `str::parse::<f64>()` over the extended domain: an optional
sign followed (case-insensitively) by `inf`/`infinity` or `nan`, or a
finite decimal literal. -/
def parseFloat64 (s : List Char) : Option F64 :=
  let (neg, s1) := splitSign s
  let low := s1.map Char.toLower
  if low = "inf".toList ∨ low = "infinity".toList then
    some (if neg then F64.negInf else F64.posInf)
  else if low = "nan".toList then some F64.nan
  else (parseFiniteFloat s).map F64.finite

/-- The rational projection of `parseFloat64`: the coercion used where
the declared `f64`-as-`ℚ` idealization applies (values parsing to an
infinity or NaN have no rational image). Extensionally this is exactly
`parseFiniteFloat`, since the special literals are not finite decimals. -/
def parseFloat (s : List Char) : Option ℚ :=
  (parseFloat64 s).bind F64.toFinite

/-- `CellValue` (`cell.rs`); `f64` is embedded as `ℚ`, `i64` as `ℤ`. -/
inductive CellValue where
  | Empty
  | Text (s : String)
  | Number (n : ℚ)
  | Boolean (b : Bool)
  | Error (e : String)
  | Date (d : ℤ)
deriving DecidableEq, Repr

/-- `CellValue::is_empty` (`cell.rs`). -/
def CellValue.is_empty : CellValue → Bool
  | .Empty => true
  | _ => false

/-- `CellValue::as_number` (`cell.rs`): `Number` as itself, `Boolean` as
0/1, `Text` parsed as a float; `Empty`, `Error` and `Date` do not
coerce. -/
def CellValue.as_number : CellValue → Option ℚ
  | .Number n => some n
  | .Boolean b => some (if b then 1 else 0)
  | .Text s => parseFloat s.toList
  | _ => none

/-- `CellValue::as_number` (`cell.rs`) over the extended `f64` domain:
identical to `as_number` except that `Text` coercion keeps the
infinity/NaN outcomes of Rust float parsing (a stored `Number` payload is
a rational by the declared idealization, hence finite). -/
def CellValue.as_number64 : CellValue → Option F64
  | .Number n => some (.finite n)
  | .Boolean b => some (.finite (if b then 1 else 0))
  | .Text s => parseFloat64 s.toList
  | _ => none

/-- `HAlign` (`cell.rs`). -/
inductive HAlign where
  | Left
  | Center
  | Right
deriving DecidableEq, Repr

/-- `VAlign` (`cell.rs`). -/
inductive VAlign where
  | Top
  | Middle
  | Bottom
deriving DecidableEq, Repr

/-- `CellStyle` (`cell.rs`); `f32` is embedded as `ℚ`, `[u8; 4]` as a
4-tuple of naturals. -/
structure CellStyle where
  number_format : Option String := none
  font_family : Option String := none
  font_size : Option ℚ := none
  bold : Option Bool := none
  italic : Option Bool := none
  color : Option (Nat × Nat × Nat × Nat) := none
  background : Option (Nat × Nat × Nat × Nat) := none
  h_align : Option HAlign := none
  v_align : Option VAlign := none
deriving DecidableEq, Repr

/-- `Cell` (`cell.rs`). -/
structure Cell where
  value : CellValue := .Empty
  formula : Option String := none
  style : CellStyle := {}
deriving DecidableEq, Repr

/-- `Cell::empty` (`cell.rs`). -/
def Cell.empty : Cell := {}

/-- `Cell::with_value` (`cell.rs`). -/
def Cell.with_value (value : CellValue) : Cell :=
  { value := value, formula := none, style := {} }

/-- `Cell::with_formula` (`cell.rs`). -/
def Cell.with_formula (formula : String) : Cell :=
  { value := .Empty, formula := some formula, style := {} }

/-! Sheet storage (`sheet.rs`). -/

/-- `Sheet` (`sheet.rs`); the sparse `IndexMap` storages are modelled by
their key-to-value map views. -/
structure Sheet where
  name : String
  cells : CellRef → Option Cell
  col_widths : Nat → Option ℚ
  row_heights : Nat → Option ℚ
  default_col_width : ℚ
  default_row_height : ℚ
  frozen_rows : Nat
  frozen_cols : Nat

/-- `Sheet::new` (`sheet.rs`). -/
def Sheet.new (name : String) : Sheet :=
  { name := name
    cells := fun _ => none
    col_widths := fun _ => none
    row_heights := fun _ => none
    default_col_width := 100
    default_row_height := 24
    frozen_rows := 0
    frozen_cols := 0 }

/-- `Sheet::get` (`sheet.rs`). -/
def Sheet.get (s : Sheet) (cell_ref : CellRef) : Option Cell :=
  s.cells cell_ref

/-- `Sheet::set` (`sheet.rs`): an empty value with no formula removes the
entry (`shift_remove`); anything else is inserted/overwritten. -/
def Sheet.set (s : Sheet) (cell_ref : CellRef) (cell : Cell) : Sheet :=
  if cell.value.is_empty && cell.formula.isNone then
    { s with cells := fun r => if r = cell_ref then none else s.cells r }
  else
    { s with cells := fun r => if r = cell_ref then some cell else s.cells r }

/-- `Sheet::clear` (`sheet.rs`). -/
def Sheet.clear (s : Sheet) (cell_ref : CellRef) : Sheet :=
  { s with cells := fun r => if r = cell_ref then none else s.cells r }

/-! The workbook (`spreadsheet.rs`). -/

/-- `Spreadsheet` (`spreadsheet.rs`). -/
structure Spreadsheet where
  sheets : List Sheet
  active_sheet : Nat

/-- `Spreadsheet::new` (`spreadsheet.rs`): one default sheet
(`Sheet::default()` is `Sheet::new("Sheet1")`), active index 0. -/
def Spreadsheet.new : Spreadsheet :=
  { sheets := [Sheet.new "Sheet1"], active_sheet := 0 }

/-- `Spreadsheet::sheet_count` (`spreadsheet.rs`). -/
def Spreadsheet.sheet_count (sp : Spreadsheet) : Nat :=
  sp.sheets.length

/-- `Spreadsheet::add_sheet` (`spreadsheet.rs`): push a new sheet, return
its index. -/
def Spreadsheet.add_sheet (sp : Spreadsheet) (name : String) : Nat × Spreadsheet :=
  (sp.sheets.length, { sp with sheets := sp.sheets ++ [Sheet.new name] })

/-- `Spreadsheet::remove_sheet` (`spreadsheet.rs`): `None` (and no state
change) when only one sheet remains or the index is out of bounds;
otherwise remove the sheet and clamp `active_sheet` to the new last index
when it points past the new end. -/
def Spreadsheet.remove_sheet (sp : Spreadsheet) (index : Nat) :
    Option Sheet × Spreadsheet :=
  if sp.sheets.length ≤ 1 ∨ sp.sheets.length ≤ index then (none, sp)
  else
    let sheets' := sp.sheets.eraseIdx index
    let active' :=
      if sheets'.length ≤ sp.active_sheet then sheets'.length - 1
      else sp.active_sheet
    (sp.sheets.get? index, { sheets := sheets', active_sheet := active' })

/-- `Spreadsheet::rename_sheet` (`spreadsheet.rs`). -/
def Spreadsheet.rename_sheet (sp : Spreadsheet) (index : Nat) (name : String) :
    Bool × Spreadsheet :=
  match sp.sheets.get? index with
  | some sh => (true, { sp with sheets := sp.sheets.set index { sh with name := name } })
  | none => (false, sp)

/-- A workbook mutation, for stating properties of every state reachable
through `add_sheet`/`remove_sheet`/`rename_sheet`. -/
inductive WorkbookOp where
  | add (name : String)
  | remove (index : Nat)
  | rename (index : Nat) (name : String)

/-- Apply one workbook mutation. -/
def applyOp (sp : Spreadsheet) : WorkbookOp → Spreadsheet
  | .add name => (sp.add_sheet name).2
  | .remove index => (sp.remove_sheet index).2
  | .rename index name => (sp.rename_sheet index name).2

/-- Run a sequence of workbook mutations from `Spreadsheet::new()`. -/
def runOps (ops : List WorkbookOp) : Spreadsheet :=
  ops.foldl applyOp Spreadsheet.new

/-! Ranges and selection (`selection.rs`). -/

/-- `CellRange` (`selection.rs`). `end` is a Lean keyword, hence the
field name `end_`. -/
structure CellRange where
  start : CellRef
  end_ : CellRef
deriving DecidableEq, Repr

/-- `CellRange::new` (`selection.rs`): normalize so `start` is top-left. -/
def CellRange.new (start end_ : CellRef) : CellRange :=
  if start.row ≤ end_.row ∧ start.col ≤ end_.col then ⟨start, end_⟩
  else
    ⟨⟨min start.row end_.row, min start.col end_.col⟩,
     ⟨max start.row end_.row, max start.col end_.col⟩⟩

/-- `CellRange::contains` (`selection.rs`). -/
def CellRange.contains (r : CellRange) (cell : CellRef) : Bool :=
  decide (r.start.row ≤ cell.row) && decide (cell.row ≤ r.end_.row) &&
  decide (r.start.col ≤ cell.col) && decide (cell.col ≤ r.end_.col)

/-- The inclusive Rust range `a..=b` as a list. -/
def rangeIncl (a b : Nat) : List Nat :=
  (List.range (b + 1 - a)).map (a + ·)

/-- `CellRange::cells` (`selection.rs`): row-major enumeration. -/
def CellRange.cellsList (r : CellRange) : List CellRef :=
  (rangeIncl r.start.row r.end_.row).flatMap fun row =>
    (rangeIncl r.start.col r.end_.col).map fun col => CellRef.new row col

/-- Rust `str::split(':')` on character lists. -/
def splitColon (l : List Char) : List (List Char) :=
  match l with
  | [] => [[]]
  | c :: cs =>
    if c = ':' then [] :: splitColon cs
    else
      match splitColon cs with
      | [] => [[c]]
      | p :: ps => (c :: p) :: ps

/-- `CellRange::parse` (`selection.rs`): split on `:`, require exactly two
parts, parse each side with the A1 codec. -/
def CellRange.parse (s : List Char) : Option CellRange :=
  match splitColon s with
  | [start_str, end_str] => do
    let start ← CellRef.parse start_str
    let e ← CellRef.parse end_str
    some (CellRange.new start e)
  | _ => none

/-- `Selection` (`selection.rs`). -/
structure Selection where
  primary : CellRef
  ranges : List CellRange
deriving DecidableEq, Repr

/-- `Selection::new` (`selection.rs`): a single-cell selection. -/
def Selection.new (cell : CellRef) : Selection :=
  ⟨cell, [CellRange.new cell cell]⟩

/-- `Selection::extend_to` (`selection.rs`): replace the range set with
one range from the current primary to `e`. -/
def Selection.extend_to (s : Selection) (e : CellRef) : Selection :=
  { s with ranges := [CellRange.new s.primary e] }

/-- `Selection::add_range` (`selection.rs`). -/
def Selection.add_range (s : Selection) (range : CellRange) : Selection :=
  ⟨range.end_, s.ranges ++ [range]⟩

/-- `Selection::is_selected` (`selection.rs`). -/
def Selection.is_selected (s : Selection) (cell : CellRef) : Bool :=
  s.ranges.any (·.contains cell)

/-- `Selection::cells` (`selection.rs`): the `HashSet` of all ranges'
cells, modelled as a `Finset`. -/
def Selection.cells (s : Selection) : Finset CellRef :=
  (s.ranges.flatMap CellRange.cellsList).toFinset

/-- `Selection::cell_count` (`selection.rs`). -/
def Selection.cell_count (s : Selection) : Nat :=
  s.cells.card

/-! The evaluator's built-in aggregate functions (`evaluator.rs`). -/

/-- `Evaluator::sum` (`evaluator.rs`): sum of the coercible values. -/
def Evaluator.sum (values : List CellValue) : CellValue :=
  .Number (values.filterMap CellValue.as_number).sum

/-- `Evaluator::max` (`evaluator.rs`): fold the coerced values with
`f64::max` from the sentinel `f64::NEG_INFINITY`; an infinite result is
mapped to `Error("No numeric values")`, any other result to `Number`.
The non-infinite result is never NaN — `f64::max` ignores NaN and the
sentinel is not NaN (`foldl_F64max_ne_nan`) — so the `nan` fallthrough of
the final match is unreachable; NaN has no rational image, and that dead
branch carries `Number 0`. -/
def Evaluator.max (values : List CellValue) : CellValue :=
  if ((values.filterMap CellValue.as_number64).foldl F64.max F64.negInf).is_infinite then
    CellValue.Error "No numeric values"
  else
    match (values.filterMap CellValue.as_number64).foldl F64.max F64.negInf with
    | .finite q => .Number q
    | _ => .Number 0

/-- `Evaluator::min` (`evaluator.rs`), symmetric to `Evaluator::max`:
fold with `f64::min` from the `f64::INFINITY` sentinel; the `nan`
fallthrough is likewise unreachable (`foldl_F64min_ne_nan`). -/
def Evaluator.min (values : List CellValue) : CellValue :=
  if ((values.filterMap CellValue.as_number64).foldl F64.min F64.posInf).is_infinite then
    CellValue.Error "No numeric values"
  else
    match (values.filterMap CellValue.as_number64).foldl F64.min F64.posInf with
    | .finite q => .Number q
    | _ => .Number 0

/-! Formulas (`formula.rs`). -/

/-- `BinaryOp` (`formula.rs`). -/
inductive BinaryOp where
  | Add | Sub | Mul | Div | Pow | Eq | Ne | Lt | Le | Gt | Ge | Concat
deriving DecidableEq, Repr

/-- `UnaryOp` (`formula.rs`). -/
inductive UnaryOp where
  | Neg | Percent
deriving DecidableEq, Repr

/-- `FormulaExpr` (`formula.rs`). -/
inductive FormulaExpr where
  | Value (v : CellValue)
  | CellRefE (r : CellRef)
  | Range (start end_ : CellRef)
  | Function (name : String) (args : List FormulaExpr)
  | BinaryOpE (op : BinaryOp) (left right : FormulaExpr)
  | UnaryOpE (op : UnaryOp) (operand : FormulaExpr)
deriving Repr

/-- `FormulaError` (`formula.rs`). -/
inductive FormulaError where
  | InvalidSyntax (msg : String)
  | DivByZero
  | InvalidRef (msg : String)
  | UnknownFunction (msg : String)
  | InvalidArgument (msg : String)
  | TypeError (msg : String)
  | CircularRef
deriving DecidableEq, Repr

/-- `Formula` (`formula.rs`). -/
structure Formula where
  text : List Char
  expr : FormulaExpr

/-- `Formula::parse` (`formula.rs`): trim; text that does not start with
`=` is an `InvalidSyntax` error; otherwise parsing succeeds (the full
expression grammar is an unimplemented stub in the source, producing the
placeholder expression `Value (Number 0.0)`). -/
def Formula.parse (text : List Char) : Except FormulaError Formula :=
  let t := trimChars text
  if t.head? = some '=' then
    .ok { text := t, expr := .Value (.Number 0) }
  else
    .error (.InvalidSyntax "Formula must start with =")

/-! Dependency-ordered recomputation (spec §4.8). -/

/-- Modelled from the spec: the dependency graph and the recomputation
pass of §4.8 are absent from the source (`Evaluator` and
`Formula::evaluate` are stubs; no dependency-graph module exists) — only
the error kinds `Error::CircularReference` (`lib.rs`) and
`FormulaError::CircularRef` (`formula.rs`) are declared. Kahn-style
readiness: a dirty cell is ready when none of its dependencies is still
in the dirty set. -/
def pickReady (deps : CellRef → List CellRef) (rem : List CellRef) : Option CellRef :=
  rem.find? fun n => (deps n).all fun d => decide (d ∉ rem)

/-- Modelled from the spec: fuel-bounded Kahn topological sort (§4.8),
returning the evaluation order and the unresolved residual set. -/
def topoSort (deps : CellRef → List CellRef) :
    Nat → List CellRef → List CellRef × List CellRef
  | 0, rem => ([], rem)
  | fuel + 1, rem =>
    match pickReady deps rem with
    | none => ([], rem)
    | some n =>
      let (ord, res) := topoSort deps fuel (rem.erase n)
      (n :: ord, res)

/-- Modelled from the spec: the recomputation pass (§4.8): topologically
sort the dirty set; evaluate the consumed cells in order; set every cell
of the unresolved residual set to `CellValue::Error("circular-reference")`
without evaluating it. Returns the new value state together with the
list of cells that were actually evaluated. -/
def recompute (deps : CellRef → List CellRef) (evalCell : CellRef → CellValue)
    (state : CellRef → CellValue) (dirty : List CellRef) :
    (CellRef → CellValue) × List CellRef :=
  let (ord, res) := topoSort deps dirty.length dirty
  let st1 := ord.foldl (fun st n => fun r => if r = n then evalCell n else st r) state
  let st2 := res.foldl
    (fun st n => fun r => if r = n then CellValue.Error "circular-reference" else st r) st1
  (st2, ord)

/-! Helper lemmas about characters and the A1 codec. -/

theorem char_toNat_ofNat {n : Nat} (h : n < 55296) : (Char.ofNat n).toNat = n := by
  rw [Char.ofNat, dif_pos (Or.inl h)]
  rfl

theorem char_eq_iff_toNat {c d : Char} : c = d ↔ c.toNat = d.toNat :=
  ⟨fun h => congrArg Char.toNat h, fun h => Char.ext (UInt32.ext h)⟩

theorem letterChar_props {k : Nat} (hk : k < 26) :
    (Char.ofNat (65 + k)).isAlpha = true ∧
    (Char.ofNat (65 + k)).isWhitespace = false ∧
    (Char.ofNat (65 + k)).toNat = 65 + k := by
  interval_cases k <;> exact ⟨by decide, by decide, by decide⟩

theorem digitChar_props {k : Nat} (hk : k < 10) :
    (Char.ofNat (48 + k)).isDigit = true ∧
    (Char.ofNat (48 + k)).isAlpha = false ∧
    (Char.ofNat (48 + k)).isWhitespace = false ∧
    Char.ofNat (48 + k) ≠ '+' ∧
    (Char.ofNat (48 + k)).toNat = 48 + k := by
  interval_cases k <;> exact ⟨by decide, by decide, by decide, by decide, by decide⟩

theorem colLetters_mem :
    ∀ n, ∀ c ∈ colLetters n,
      c.isAlpha = true ∧ c.isWhitespace = false ∧ 65 ≤ c.toNat ∧ c.toNat ≤ 90 := by
  intro n
  induction n using Nat.strong_induction_on with
  | _ n ih =>
    match n with
    | 0 => intro c hc; rw [colLetters] at hc; simp at hc
    | m + 1 =>
      intro c hc
      rw [colLetters] at hc
      rcases List.mem_append.1 hc with h | h
      · exact ih (m / 26) (Nat.lt_succ_of_le (Nat.div_le_self m 26)) c h
      · have hm : c = Char.ofNat (65 + m % 26) := by simpa using h
        subst hm
        have h26 : m % 26 < 26 := Nat.mod_lt _ (by omega)
        obtain ⟨h1, h2, h3⟩ := letterChar_props h26
        exact ⟨h1, h2, by omega, by omega⟩

theorem natDigits_mem :
    ∀ n, ∀ c ∈ natDigits n,
      c.isDigit = true ∧ c.isAlpha = false ∧ c.isWhitespace = false ∧
      c ≠ '+' ∧ 48 ≤ c.toNat ∧ c.toNat ≤ 57 := by
  intro n
  induction n using Nat.strong_induction_on with
  | _ n ih =>
    intro c hc
    rw [natDigits] at hc
    by_cases hn : n < 10
    · rw [if_pos hn] at hc
      have hm : c = Char.ofNat (48 + n) := by simpa using hc
      subst hm
      obtain ⟨h1, h2, h3, h4, h5⟩ := digitChar_props hn
      exact ⟨h1, h2, h3, h4, by omega, by omega⟩
    · rw [if_neg hn] at hc
      rcases List.mem_append.1 hc with h | h
      · exact ih (n / 10) (Nat.div_lt_self (by omega) (by omega)) c h
      · have h10 : n % 10 < 10 := Nat.mod_lt _ (by omega)
        have hm : c = Char.ofNat (48 + n % 10) := by simpa using h
        subst hm
        obtain ⟨h1, h2, h3, h4, h5⟩ := digitChar_props h10
        exact ⟨h1, h2, h3, h4, by omega, by omega⟩

theorem natDigits_ne_nil (n : Nat) : natDigits n ≠ [] := by
  rw [natDigits]
  by_cases hn : n < 10
  · rw [if_pos hn]; simp
  · rw [if_neg hn]; simp

theorem parseColLoop_colLetters :
    ∀ n acc rest,
      parseColLoop (colLetters n ++ rest) acc
        = parseColLoop rest (acc * 26 ^ (colLetters n).length + n) := by
  intro n
  induction n using Nat.strong_induction_on with
  | _ n ih =>
    match n with
    | 0 => intro acc rest; simp [colLetters]
    | m + 1 =>
      intro acc rest
      rw [colLetters, List.append_assoc,
        ih (m / 26) (Nat.lt_succ_of_le (Nat.div_le_self m 26))]
      have h26 : m % 26 < 26 := Nat.mod_lt _ (by omega)
      obtain ⟨halpha, _, htoNat⟩ := letterChar_props h26
      rw [List.cons_append, parseColLoop, if_pos halpha, htoNat]
      congr 1
      simp only [List.length_append, List.length_cons, List.length_nil]
      rw [pow_succ, ← Nat.mul_assoc]
      generalize acc * 26 ^ (colLetters (m / 26)).length = A
      omega

theorem natDigits_foldl :
    ∀ n a, (natDigits n).foldl (fun a c => a * 10 + (c.toNat - 48)) a
      = a * 10 ^ (natDigits n).length + n := by
  intro n
  induction n using Nat.strong_induction_on with
  | _ n ih =>
    intro a
    rw [natDigits]
    by_cases hn : n < 10
    · rw [if_pos hn]
      simp [char_toNat_ofNat (show 48 + n < 55296 by omega)]
    · rw [if_neg hn]
      have h10 : n % 10 < 10 := Nat.mod_lt _ (by omega)
      rw [List.foldl_append, ih (n / 10) (Nat.div_lt_self (by omega) (by omega))]
      simp only [List.foldl_cons, List.foldl_nil, List.length_append,
        List.length_cons, List.length_nil]
      rw [char_toNat_ofNat (show 48 + n % 10 < 55296 by omega)]
      rw [pow_succ, ← Nat.mul_assoc]
      generalize a * 10 ^ (natDigits (n / 10)).length = A
      omega

theorem digitsToNat_natDigits (n : Nat) : digitsToNat (natDigits n) = some n := by
  unfold digitsToNat
  rw [if_neg (by simp [natDigits_ne_nil n]), if_pos]
  · rw [natDigits_foldl]
    simp
  · rw [List.all_eq_true]
    intro c hc
    exact (natDigits_mem n c hc).1

theorem parseUsize_natDigits (n : Nat) : parseUsize (natDigits n) = some n := by
  rw [← digitsToNat_natDigits n]
  cases hnd : natDigits n with
  | nil => exact absurd hnd (natDigits_ne_nil n)
  | cons d ds =>
    have hd : d ≠ '+' := (natDigits_mem n d (hnd ▸ List.mem_cons_self d ds)).2.2.2.1
    unfold parseUsize
    split
    · next heq => exact absurd (List.cons.inj heq).1 hd
    · rfl

theorem trimChars_of_no_ws {l : List Char} (h : ∀ c ∈ l, c.isWhitespace = false) :
    trimChars l = l := by
  unfold trimChars
  have h1 : l.dropWhile Char.isWhitespace = l := by
    cases l with
    | nil => rfl
    | cons c cs => rw [List.dropWhile_cons_of_neg (by simp [h c (by simp)])]
  rw [h1]
  have h2 : l.reverse.dropWhile Char.isWhitespace = l.reverse := by
    cases hr : l.reverse with
    | nil => rfl
    | cons c cs =>
      have hc : c ∈ l := by rw [← List.mem_reverse, hr]; simp
      rw [List.dropWhile_cons_of_neg (by simp [h c hc])]
  rw [h2, List.reverse_reverse]

theorem toUpper_of_toNat_lt {c : Char} (h : c.toNat < 97) : c.toUpper = c := by
  simp only [Char.toUpper]
  rw [if_neg (by omega)]

/-- C1: the A1 codec round-trips: for every cell reference `r`,
`CellRef::parse (CellRef::to_a1 r) = Some r`, and the column letters that
`to_a1` produces are canonical uppercase ASCII letters. -/
theorem c1_parse_to_a1_roundtrip (r : CellRef) :
    CellRef.parse (CellRef.to_a1 r) = some r ∧
    ∀ c ∈ colLetters (r.col + 1), 65 ≤ c.toNat ∧ c.toNat ≤ 90 := by
  refine ⟨?_, fun c hc => (colLetters_mem _ c hc).2.2⟩
  have hall : ∀ c ∈ CellRef.to_a1 r, c.isWhitespace = false ∧ c.toUpper = c := by
    intro c hc
    rcases List.mem_append.1 hc with h | h
    · obtain ⟨_, hws, hlo, hhi⟩ := colLetters_mem _ c h
      exact ⟨hws, toUpper_of_toNat_lt (by omega)⟩
    · obtain ⟨_, _, hws, _, hlo, hhi⟩ := natDigits_mem _ c h
      exact ⟨hws, toUpper_of_toNat_lt (by omega)⟩
  unfold CellRef.parse
  rw [trimChars_of_no_ws (fun c hc => (hall c hc).1)]
  rw [List.map_congr_left (fun c hc => (hall c hc).2), List.map_id']
  show (match parseColLoop (CellRef.to_a1 r) 0 with
    | (col, rest) =>
      if col = 0 then none
      else
        match parseUsize rest with
        | none => none
        | some row => if row = 0 then none else some ⟨row - 1, col - 1⟩) = some r
  rw [CellRef.to_a1, parseColLoop_colLetters]
  cases hnd : natDigits (r.row + 1) with
  | nil => exact absurd hnd (natDigits_ne_nil _)
  | cons d ds =>
    have hdprops := natDigits_mem (r.row + 1) d (hnd ▸ List.mem_cons_self d ds)
    rw [parseColLoop, if_neg (by simp [hdprops.2.1])]
    simp only [Nat.zero_mul, Nat.zero_add]
    rw [if_neg (by omega), ← hnd, parseUsize_natDigits]
    simp

/-- C2: `Sheet::set` with an empty value and no formula removes the
entry, so `get` returns `None` regardless of what was stored before; for
every other cell `set` inserts/overwrites so that `get` returns it. -/
theorem c2_set_empty_removes (sheet : Sheet) (r : CellRef) (c : Cell) :
    (c.value.is_empty = true ∧ c.formula = none → (sheet.set r c).get r = none) ∧
    (¬(c.value.is_empty = true ∧ c.formula = none) → (sheet.set r c).get r = some c) := by
  constructor
  · rintro ⟨h1, h2⟩
    simp [Sheet.set, Sheet.get, h1, h2]
  · intro hcon
    have hfalse : (c.value.is_empty && c.formula.isNone) = false := by
      cases he : c.value.is_empty <;> cases hf : c.formula <;>
        simp_all [Option.isNone]
    simp [Sheet.set, Sheet.get, hfalse]

/-- Witness for C2 at a concrete sheet and cell. -/
theorem c2_set_empty_removes_witness :
    ((Sheet.new "Sheet1").set (CellRef.new 0 0) (Cell.with_value .Empty)).get
      (CellRef.new 0 0) = none ∧
    ((Sheet.new "Sheet1").set (CellRef.new 0 0)
        (Cell.with_value (.Number 1))).get (CellRef.new 0 0)
      = some (Cell.with_value (.Number 1)) :=
  ⟨(c2_set_empty_removes _ _ _).1 ⟨rfl, rfl⟩,
   (c2_set_empty_removes _ _ _).2 (by simp [Cell.with_value, CellValue.is_empty])⟩

/-- C3: every workbook state reachable from `Spreadsheet::new()` through
`add_sheet`/`remove_sheet`/`rename_sheet` has at least one sheet and a
valid `active_sheet` index; `remove_sheet` is a no-op returning `None`
when only one sheet remains or the index is out of bounds; a successful
removal shrinks the count by one, returns the removed sheet, and clamps
`active_sheet` to the new last index exactly when it pointed past the new
end. -/
theorem c3_workbook_invariants :
    (∀ ops : List WorkbookOp,
      1 ≤ (runOps ops).sheet_count ∧
      (runOps ops).active_sheet < (runOps ops).sheet_count) ∧
    (∀ (sp : Spreadsheet) (i : Nat),
      sp.sheet_count ≤ 1 ∨ sp.sheet_count ≤ i → sp.remove_sheet i = (none, sp)) ∧
    (∀ (sp : Spreadsheet) (i : Nat), 1 < sp.sheet_count → i < sp.sheet_count →
      (sp.remove_sheet i).2.sheet_count = sp.sheet_count - 1 ∧
      (sp.remove_sheet i).1 = sp.sheets.get? i ∧
      (sp.active_sheet < sp.sheet_count - 1 →
        (sp.remove_sheet i).2.active_sheet = sp.active_sheet) ∧
      (sp.sheet_count - 1 ≤ sp.active_sheet →
        (sp.remove_sheet i).2.active_sheet = sp.sheet_count - 2)) := by
  have step : ∀ (sp : Spreadsheet) (op : WorkbookOp),
      1 ≤ sp.sheet_count ∧ sp.active_sheet < sp.sheet_count →
      1 ≤ (applyOp sp op).sheet_count ∧
      (applyOp sp op).active_sheet < (applyOp sp op).sheet_count := by
    rintro sp op ⟨h1, h2⟩
    cases op with
    | add name =>
      simp only [applyOp, Spreadsheet.add_sheet, Spreadsheet.sheet_count,
        List.length_append, List.length_cons, List.length_nil] at *
      omega
    | remove index =>
      simp only [applyOp, Spreadsheet.remove_sheet, Spreadsheet.sheet_count] at *
      by_cases hc : sp.sheets.length ≤ 1 ∨ sp.sheets.length ≤ index
      · rw [if_pos hc]
        exact ⟨h1, h2⟩
      · rw [if_neg hc]
        push_neg at hc
        have hlen : (sp.sheets.eraseIdx index).length = sp.sheets.length - 1 :=
          List.length_eraseIdx_of_lt (by omega)
        simp only [hlen]
        constructor
        · omega
        · split <;> omega
    | rename index name =>
      simp only [applyOp, Spreadsheet.rename_sheet] at *
      cases hg : sp.sheets.get? index with
      | none => simpa using ⟨h1, h2⟩
      | some sh =>
        simp only [Spreadsheet.sheet_count, List.length_set] at *
        exact ⟨h1, h2⟩
  refine ⟨?_, ?_, ?_⟩
  · have main : ∀ (ops : List WorkbookOp) (sp : Spreadsheet),
        1 ≤ sp.sheet_count ∧ sp.active_sheet < sp.sheet_count →
        1 ≤ (ops.foldl applyOp sp).sheet_count ∧
        (ops.foldl applyOp sp).active_sheet < (ops.foldl applyOp sp).sheet_count := by
      intro ops
      induction ops with
      | nil => intro sp h; simpa using h
      | cons op rest ih => intro sp h; exact ih _ (step sp op h)
    intro ops
    exact main ops Spreadsheet.new ⟨Nat.le_refl 1, Nat.zero_lt_one⟩
  · intro sp i h
    unfold Spreadsheet.remove_sheet
    rw [if_pos (by simpa [Spreadsheet.sheet_count] using h)]
  · intro sp i h1 h2
    unfold Spreadsheet.remove_sheet
    rw [if_neg (by simp only [Spreadsheet.sheet_count] at h1 h2; omega)]
    have hlen : (sp.sheets.eraseIdx i).length = sp.sheets.length - 1 :=
      List.length_eraseIdx_of_lt (by simpa [Spreadsheet.sheet_count] using h2)
    simp only [Spreadsheet.sheet_count] at h1 h2 ⊢
    refine ⟨hlen, by trivial, ?_, ?_⟩
    · intro hact
      simp only [hlen]
      rw [if_neg (by omega)]
    · intro hact
      simp only [hlen]
      rw [if_pos (by omega)]
      omega

/-- Witness for C3: removing the only sheet of a fresh workbook is a
no-op returning `None`, and a successful removal from a two-sheet
workbook leaves one sheet. -/
theorem c3_workbook_invariants_witness :
    Spreadsheet.new.remove_sheet 0 = (none, Spreadsheet.new) ∧
    ((Spreadsheet.new.add_sheet "S2").2.remove_sheet 1).2.sheet_count = 1 :=
  ⟨c3_workbook_invariants.2.1 Spreadsheet.new 0 (Or.inl (Nat.le_refl 1)),
   (c3_workbook_invariants.2.2 (Spreadsheet.new.add_sheet "S2").2 1
      (by simp [Spreadsheet.add_sheet, Spreadsheet.sheet_count, Spreadsheet.new])
      (by simp [Spreadsheet.add_sheet, Spreadsheet.sheet_count, Spreadsheet.new])).1⟩

/-- C5: `Selection::extend_to` replaces the whole range set with exactly
one normalized range from the current primary to the given end, leaves
`primary` unchanged, and is not cumulative; the concrete selection
`new(0,0).extend_to(2,2)` selects exactly 9 cells including `(1,1)`. -/
theorem c5_extend_to (s : Selection) (e : CellRef) :
    (s.extend_to e).primary = s.primary ∧
    (s.extend_to e).ranges = [CellRange.new s.primary e] ∧
    (∀ e', (s.extend_to e).extend_to e' = s.extend_to e') ∧
    ((Selection.new (CellRef.new 0 0)).extend_to (CellRef.new 2 2)).cells.card = 9 ∧
    CellRef.new 1 1 ∈ ((Selection.new (CellRef.new 0 0)).extend_to (CellRef.new 2 2)).cells :=
  ⟨rfl, rfl, fun _ => rfl, by decide, by decide⟩

/-- C6: `CellRange::new` is order-independent and always returns the
element-wise minimum as `start` and the element-wise maximum as `end`. -/
theorem c6_range_new_normalizes (a b : CellRef) :
    CellRange.new a b = CellRange.new b a ∧
    (CellRange.new a b).start = CellRef.new (min a.row b.row) (min a.col b.col) ∧
    (CellRange.new a b).end_ = CellRef.new (max a.row b.row) (max a.col b.col) := by
  obtain ⟨ar, ac⟩ := a
  obtain ⟨br, bc⟩ := b
  unfold CellRange.new CellRef.new
  by_cases h1 : ar ≤ br ∧ ac ≤ bc <;> by_cases h2 : br ≤ ar ∧ bc ≤ ac <;>
    simp only [h1, h2, if_pos, if_neg, not_false_iff] <;>
    refine ⟨?_, ?_, ?_⟩ <;>
    simp_all [CellRange.mk.injEq, CellRef.mk.injEq] <;> omega

theorem F64.max_ne_nan {a b : F64} (ha : a ≠ F64.nan) : F64.max a b ≠ F64.nan := by
  cases a <;> cases b <;> simp_all [F64.max]

theorem F64.min_ne_nan {a b : F64} (ha : a ≠ F64.nan) : F64.min a b ≠ F64.nan := by
  cases a <;> cases b <;> simp_all [F64.min]

theorem foldl_F64max_ne_nan :
    ∀ (l : List F64) (acc : F64), acc ≠ F64.nan → l.foldl F64.max acc ≠ F64.nan := by
  intro l
  induction l with
  | nil => intro acc h; exact h
  | cons v vs ih => intro acc h; exact ih (F64.max acc v) (F64.max_ne_nan h)

theorem foldl_F64min_ne_nan :
    ∀ (l : List F64) (acc : F64), acc ≠ F64.nan → l.foldl F64.min acc ≠ F64.nan := by
  intro l
  induction l with
  | nil => intro acc h; exact h
  | cons v vs ih => intro acc h; exact ih (F64.min acc v) (F64.min_ne_nan h)

theorem foldl_F64max_posInf_stay :
    ∀ l : List F64, l.foldl F64.max F64.posInf = F64.posInf := by
  intro l
  induction l with
  | nil => rfl
  | cons v vs ih =>
    have hstep : F64.max F64.posInf v = F64.posInf := by cases v <;> rfl
    rw [List.foldl_cons, hstep, ih]

theorem foldl_F64min_negInf_stay :
    ∀ l : List F64, l.foldl F64.min F64.negInf = F64.negInf := by
  intro l
  induction l with
  | nil => rfl
  | cons v vs ih =>
    have hstep : F64.min F64.negInf v = F64.negInf := by cases v <;> rfl
    rw [List.foldl_cons, hstep, ih]

theorem foldl_F64max_posInf_of_mem :
    ∀ (l : List F64) (acc : F64), acc ≠ F64.nan → F64.posInf ∈ l →
      l.foldl F64.max acc = F64.posInf := by
  intro l
  induction l with
  | nil => intro acc _ h; simp at h
  | cons v vs ih =>
    intro acc hacc hm
    rcases List.mem_cons.1 hm with h | h
    · subst h
      have hstep : F64.max acc F64.posInf = F64.posInf := by
        cases acc <;> simp_all [F64.max]
      rw [List.foldl_cons, hstep, foldl_F64max_posInf_stay]
    · rw [List.foldl_cons]
      exact ih (F64.max acc v) (F64.max_ne_nan hacc) h

theorem foldl_F64min_negInf_of_mem :
    ∀ (l : List F64) (acc : F64), acc ≠ F64.nan → F64.negInf ∈ l →
      l.foldl F64.min acc = F64.negInf := by
  intro l
  induction l with
  | nil => intro acc _ h; simp at h
  | cons v vs ih =>
    intro acc hacc hm
    rcases List.mem_cons.1 hm with h | h
    · subst h
      have hstep : F64.min acc F64.negInf = F64.negInf := by
        cases acc <;> simp_all [F64.min]
      rw [List.foldl_cons, hstep, foldl_F64min_negInf_stay]
    · rw [List.foldl_cons]
      exact ih (F64.min acc v) (F64.min_ne_nan hacc) h

theorem foldl_F64max_finite_acc :
    ∀ (l : List F64) (a : ℚ), F64.posInf ∉ l →
      l.foldl F64.max (F64.finite a)
        = F64.finite ((l.filterMap F64.toFinite).foldl Max.max a) := by
  intro l
  induction l with
  | nil => intro a _; rfl
  | cons v vs ih =>
    intro a hp
    have hvs : F64.posInf ∉ vs := fun h => hp (List.mem_cons_of_mem v h)
    cases v with
    | posInf => exact absurd (List.mem_cons_self _ _) hp
    | finite b =>
      simpa [F64.max, F64.toFinite, List.filterMap_cons] using ih (Max.max a b) hvs
    | negInf =>
      simpa [F64.max, F64.toFinite, List.filterMap_cons] using ih a hvs
    | nan =>
      simpa [F64.max, F64.toFinite, List.filterMap_cons] using ih a hvs

theorem foldl_F64min_finite_acc :
    ∀ (l : List F64) (a : ℚ), F64.negInf ∉ l →
      l.foldl F64.min (F64.finite a)
        = F64.finite ((l.filterMap F64.toFinite).foldl Min.min a) := by
  intro l
  induction l with
  | nil => intro a _; rfl
  | cons v vs ih =>
    intro a hn
    have hvs : F64.negInf ∉ vs := fun h => hn (List.mem_cons_of_mem v h)
    cases v with
    | negInf => exact absurd (List.mem_cons_self _ _) hn
    | finite b =>
      simpa [F64.min, F64.toFinite, List.filterMap_cons] using ih (Min.min a b) hvs
    | posInf =>
      simpa [F64.min, F64.toFinite, List.filterMap_cons] using ih a hvs
    | nan =>
      simpa [F64.min, F64.toFinite, List.filterMap_cons] using ih a hvs

theorem foldl_F64max_no_finite :
    ∀ l : List F64, F64.posInf ∉ l → l.filterMap F64.toFinite = [] →
      l.foldl F64.max F64.negInf = F64.negInf := by
  intro l
  induction l with
  | nil => intro _ _; rfl
  | cons v vs ih =>
    intro hp hf
    have hvs : F64.posInf ∉ vs := fun h => hp (List.mem_cons_of_mem v h)
    cases v with
    | posInf => exact absurd (List.mem_cons_self _ _) hp
    | finite b => simp [List.filterMap_cons, F64.toFinite] at hf
    | negInf =>
      rw [List.filterMap_cons] at hf
      simp only [F64.toFinite] at hf
      rw [List.foldl_cons, show F64.max F64.negInf F64.negInf = F64.negInf from rfl]
      exact ih hvs hf
    | nan =>
      rw [List.filterMap_cons] at hf
      simp only [F64.toFinite] at hf
      rw [List.foldl_cons, show F64.max F64.negInf F64.nan = F64.negInf from rfl]
      exact ih hvs hf

theorem foldl_F64min_no_finite :
    ∀ l : List F64, F64.negInf ∉ l → l.filterMap F64.toFinite = [] →
      l.foldl F64.min F64.posInf = F64.posInf := by
  intro l
  induction l with
  | nil => intro _ _; rfl
  | cons v vs ih =>
    intro hn hf
    have hvs : F64.negInf ∉ vs := fun h => hn (List.mem_cons_of_mem v h)
    cases v with
    | negInf => exact absurd (List.mem_cons_self _ _) hn
    | finite b => simp [List.filterMap_cons, F64.toFinite] at hf
    | posInf =>
      rw [List.filterMap_cons] at hf
      simp only [F64.toFinite] at hf
      rw [List.foldl_cons, show F64.min F64.posInf F64.posInf = F64.posInf from rfl]
      exact ih hvs hf
    | nan =>
      rw [List.filterMap_cons] at hf
      simp only [F64.toFinite] at hf
      rw [List.foldl_cons, show F64.min F64.posInf F64.nan = F64.posInf from rfl]
      exact ih hvs hf

theorem foldl_F64max_first_finite :
    ∀ (l : List F64), F64.posInf ∉ l → ∀ x xs,
      l.filterMap F64.toFinite = x :: xs →
      l.foldl F64.max F64.negInf = F64.finite (xs.foldl Max.max x) := by
  intro l
  induction l with
  | nil => intro _ x xs hx; simp at hx
  | cons v vs ih =>
    intro hp x xs hx
    have hvs : F64.posInf ∉ vs := fun h => hp (List.mem_cons_of_mem v h)
    cases v with
    | posInf => exact absurd (List.mem_cons_self _ _) hp
    | finite b =>
      rw [List.filterMap_cons] at hx
      simp only [F64.toFinite] at hx
      obtain ⟨rfl, rfl⟩ : b = x ∧ vs.filterMap F64.toFinite = xs := by
        cases hx; exact ⟨rfl, rfl⟩
      rw [List.foldl_cons, show F64.max F64.negInf (F64.finite b) = F64.finite b from rfl]
      exact foldl_F64max_finite_acc vs b hvs
    | negInf =>
      rw [List.filterMap_cons] at hx
      simp only [F64.toFinite] at hx
      rw [List.foldl_cons, show F64.max F64.negInf F64.negInf = F64.negInf from rfl]
      exact ih hvs x xs hx
    | nan =>
      rw [List.filterMap_cons] at hx
      simp only [F64.toFinite] at hx
      rw [List.foldl_cons, show F64.max F64.negInf F64.nan = F64.negInf from rfl]
      exact ih hvs x xs hx

theorem foldl_F64min_first_finite :
    ∀ (l : List F64), F64.negInf ∉ l → ∀ x xs,
      l.filterMap F64.toFinite = x :: xs →
      l.foldl F64.min F64.posInf = F64.finite (xs.foldl Min.min x) := by
  intro l
  induction l with
  | nil => intro _ x xs hx; simp at hx
  | cons v vs ih =>
    intro hn x xs hx
    have hvs : F64.negInf ∉ vs := fun h => hn (List.mem_cons_of_mem v h)
    cases v with
    | negInf => exact absurd (List.mem_cons_self _ _) hn
    | finite b =>
      rw [List.filterMap_cons] at hx
      simp only [F64.toFinite] at hx
      obtain ⟨rfl, rfl⟩ : b = x ∧ vs.filterMap F64.toFinite = xs := by
        cases hx; exact ⟨rfl, rfl⟩
      rw [List.foldl_cons, show F64.min F64.posInf (F64.finite b) = F64.finite b from rfl]
      exact foldl_F64min_finite_acc vs b hvs
    | posInf =>
      rw [List.filterMap_cons] at hx
      simp only [F64.toFinite] at hx
      rw [List.foldl_cons, show F64.min F64.posInf F64.posInf = F64.posInf from rfl]
      exact ih hvs x xs hx
    | nan =>
      rw [List.filterMap_cons] at hx
      simp only [F64.toFinite] at hx
      rw [List.foldl_cons, show F64.min F64.posInf F64.nan = F64.posInf from rfl]
      exact ih hvs x xs hx

theorem as_number_eq_finite_fragment (v : CellValue) :
    v.as_number = v.as_number64.bind F64.toFinite := by
  cases v <;> rfl

theorem filterMap_as_number_eq (values : List CellValue) :
    (values.filterMap CellValue.as_number64).filterMap F64.toFinite
      = values.filterMap CellValue.as_number := by
  rw [List.filterMap_filterMap]
  have h : (fun v => (CellValue.as_number64 v).bind F64.toFinite)
      = CellValue.as_number :=
    funext fun v => (as_number_eq_finite_fragment v).symm
  rw [h]

theorem evaluator_max_error_of (values : List CellValue)
    (h : F64.posInf ∈ values.filterMap CellValue.as_number64 ∨
      values.filterMap CellValue.as_number = []) :
    Evaluator.max values = .Error "No numeric values" := by
  unfold Evaluator.max
  rcases h with h | h
  · rw [foldl_F64max_posInf_of_mem _ _ (by simp) h]; rfl
  · rw [← filterMap_as_number_eq values] at h
    by_cases hp : F64.posInf ∈ values.filterMap CellValue.as_number64
    · rw [foldl_F64max_posInf_of_mem _ _ (by simp) hp]; rfl
    · rw [foldl_F64max_no_finite _ hp h]; rfl

theorem evaluator_min_error_of (values : List CellValue)
    (h : F64.negInf ∈ values.filterMap CellValue.as_number64 ∨
      values.filterMap CellValue.as_number = []) :
    Evaluator.min values = .Error "No numeric values" := by
  unfold Evaluator.min
  rcases h with h | h
  · rw [foldl_F64min_negInf_of_mem _ _ (by simp) h]; rfl
  · rw [← filterMap_as_number_eq values] at h
    by_cases hn : F64.negInf ∈ values.filterMap CellValue.as_number64
    · rw [foldl_F64min_negInf_of_mem _ _ (by simp) hn]; rfl
    · rw [foldl_F64min_no_finite _ hn h]; rfl

theorem evaluator_max_number_of (values : List CellValue)
    (hp : F64.posInf ∉ values.filterMap CellValue.as_number64) (x : ℚ) (xs : List ℚ)
    (hx : values.filterMap CellValue.as_number = x :: xs) :
    Evaluator.max values = .Number (xs.foldl Max.max x) := by
  unfold Evaluator.max
  rw [← filterMap_as_number_eq values] at hx
  rw [foldl_F64max_first_finite _ hp x xs hx]
  rfl

theorem evaluator_min_number_of (values : List CellValue)
    (hn : F64.negInf ∉ values.filterMap CellValue.as_number64) (x : ℚ) (xs : List ℚ)
    (hx : values.filterMap CellValue.as_number = x :: xs) :
    Evaluator.min values = .Number (xs.foldl Min.min x) := by
  unfold Evaluator.min
  rw [← filterMap_as_number_eq values] at hx
  rw [foldl_F64min_first_finite _ hn x xs hx]
  rfl

theorem le_foldl_max (l : List ℚ) : ∀ a : ℚ, a ≤ l.foldl Max.max a := by
  induction l with
  | nil => intro a; exact le_refl a
  | cons x xs ih => intro a; exact le_trans (le_max_left a x) (ih (Max.max a x))

theorem mem_le_foldl_max (l : List ℚ) :
    ∀ (a x : ℚ), x ∈ l → x ≤ l.foldl Max.max a := by
  induction l with
  | nil => intro a x hx; simp at hx
  | cons y ys ih =>
    intro a x hx
    rcases List.mem_cons.1 hx with h | h
    · subst h
      exact le_trans (le_max_right a x) (le_foldl_max ys (Max.max a x))
    · exact ih (Max.max a y) x h

theorem foldl_max_mem (l : List ℚ) :
    ∀ a : ℚ, l.foldl Max.max a = a ∨ l.foldl Max.max a ∈ l := by
  induction l with
  | nil => intro a; exact Or.inl rfl
  | cons x xs ih =>
    intro a
    rcases ih (Max.max a x) with h | h
    · rcases max_choice a x with hm | hm
      · exact Or.inl (by rw [List.foldl_cons, h, hm])
      · exact Or.inr (by rw [List.foldl_cons, h, hm]; exact List.mem_cons_self x xs)
    · exact Or.inr (List.mem_cons_of_mem x h)

theorem foldl_min_le (l : List ℚ) : ∀ a : ℚ, l.foldl Min.min a ≤ a := by
  induction l with
  | nil => intro a; exact le_refl a
  | cons x xs ih => intro a; exact le_trans (ih (Min.min a x)) (min_le_left a x)

theorem foldl_min_le_mem (l : List ℚ) :
    ∀ (a x : ℚ), x ∈ l → l.foldl Min.min a ≤ x := by
  induction l with
  | nil => intro a x hx; simp at hx
  | cons y ys ih =>
    intro a x hx
    rcases List.mem_cons.1 hx with h | h
    · subst h
      exact le_trans (foldl_min_le ys (Min.min a x)) (min_le_right a x)
    · exact ih (Min.min a y) x h

theorem foldl_min_mem (l : List ℚ) :
    ∀ a : ℚ, l.foldl Min.min a = a ∨ l.foldl Min.min a ∈ l := by
  induction l with
  | nil => intro a; exact Or.inl rfl
  | cons x xs ih =>
    intro a
    rcases ih (Min.min a x) with h | h
    · rcases min_choice a x with hm | hm
      · exact Or.inl (by rw [List.foldl_cons, h, hm])
      · exact Or.inr (by rw [List.foldl_cons, h, hm]; exact List.mem_cons_self x xs)
    · exact Or.inr (List.mem_cons_of_mem x h)

/-- C7: `Evaluator::sum` returns `Number` of the sum of the coercible
values — each value contributing its coercion where defined and 0
otherwise (skipped, never failing) — with `Number` coercing to itself,
`Boolean` to 0/1 and `Text` via float parsing; concrete cases included. -/
theorem c7_sum (values : List CellValue) :
    Evaluator.sum values
      = CellValue.Number (values.map (fun v => v.as_number.getD 0)).sum ∧
    (∀ q : ℚ, (CellValue.Number q).as_number = some q) ∧
    (CellValue.Boolean true).as_number = some 1 ∧
    (CellValue.Boolean false).as_number = some 0 ∧
    (∀ t : String, (CellValue.Text t).as_number = parseFloat t.toList) ∧
    Evaluator.sum [.Number 1, .Number 2, .Number 3] = .Number 6 ∧
    Evaluator.sum [.Number 1, .Text "x", .Empty] = .Number 1 := by
  refine ⟨?_, fun _ => rfl, rfl, rfl, fun _ => rfl, ?_, ?_⟩
  · unfold Evaluator.sum
    congr 1
    induction values with
    | nil => rfl
    | cons v vs ih =>
      cases hv : v.as_number <;>
        simp [List.filterMap_cons, hv, ih]
  · unfold Evaluator.sum
    norm_num [List.filterMap_cons, CellValue.as_number, List.sum_cons, List.sum_nil]
  · unfold Evaluator.sum
    norm_num [List.filterMap_cons, CellValue.as_number, List.sum_cons, List.sum_nil,
      show parseFloat ['x'] = none from rfl]

/-- C8 counterexample: at `[Text "inf", Number 5]` the code coerces
`"inf"` to `+∞`, the sentinel fold stays infinite, and `Evaluator::max`
returns the error even though a numerically-coercible value is present —
so the claim's "exactly when the sequence contains no
numerically-coercible value" is false of the program (symmetrically for
`min` with `"-inf"`); moreover the error payload the code produces is
`"No numeric values"`, never the claim's `"no-numeric-values"`. -/
theorem c8_error_string_counterexample :
    (CellValue.Text "inf").as_number64 = some F64.posInf ∧
    Evaluator.max [CellValue.Text "inf", CellValue.Number 5]
      = CellValue.Error "No numeric values" ∧
    Evaluator.max [CellValue.Text "inf", CellValue.Number 5]
      ≠ CellValue.Error "no-numeric-values" ∧
    Evaluator.min [CellValue.Text "-inf", CellValue.Number 5]
      = CellValue.Error "No numeric values" ∧
    Evaluator.max ([] : List CellValue) = CellValue.Error "No numeric values" ∧
    Evaluator.max ([] : List CellValue) ≠ CellValue.Error "no-numeric-values" :=
  ⟨rfl, rfl, by decide, rfl, rfl, by decide⟩

/-- C8 (amended): `Evaluator::max` (resp. `min`) returns
`Error("No numeric values")` — the code's payload — exactly when the
`f64` sentinel fold ends infinite: when some value coerces to `+∞`
(resp. `-∞`) or when no value coerces to a finite number; otherwise it
returns `Number` of the maximum (resp. minimum) of the finitely-coerced
values. -/
theorem c8_max_min (values : List CellValue) :
    (Evaluator.max values = .Error "No numeric values" ↔
      (F64.posInf ∈ values.filterMap CellValue.as_number64 ∨
        values.filterMap CellValue.as_number = [])) ∧
    (Evaluator.min values = .Error "No numeric values" ↔
      (F64.negInf ∈ values.filterMap CellValue.as_number64 ∨
        values.filterMap CellValue.as_number = [])) ∧
    (∀ m, Evaluator.max values = .Number m →
      m ∈ values.filterMap CellValue.as_number ∧
      ∀ x ∈ values.filterMap CellValue.as_number, x ≤ m) ∧
    (∀ m, Evaluator.min values = .Number m →
      m ∈ values.filterMap CellValue.as_number ∧
      ∀ x ∈ values.filterMap CellValue.as_number, m ≤ x) ∧
    (F64.posInf ∉ values.filterMap CellValue.as_number64 →
      values.filterMap CellValue.as_number ≠ [] →
      ∃ m, Evaluator.max values = .Number m) ∧
    (F64.negInf ∉ values.filterMap CellValue.as_number64 →
      values.filterMap CellValue.as_number ≠ [] →
      ∃ m, Evaluator.min values = .Number m) := by
  have hmaxn : ∀ m, Evaluator.max values = .Number m →
      F64.posInf ∉ values.filterMap CellValue.as_number64 ∧
      values.filterMap CellValue.as_number ≠ [] := by
    intro m hm
    by_cases hp : F64.posInf ∈ values.filterMap CellValue.as_number64
    · rw [evaluator_max_error_of values (Or.inl hp)] at hm
      exact absurd hm (by simp)
    · refine ⟨hp, ?_⟩
      intro hf
      rw [evaluator_max_error_of values (Or.inr hf)] at hm
      exact absurd hm (by simp)
  have hminn : ∀ m, Evaluator.min values = .Number m →
      F64.negInf ∉ values.filterMap CellValue.as_number64 ∧
      values.filterMap CellValue.as_number ≠ [] := by
    intro m hm
    by_cases hn : F64.negInf ∈ values.filterMap CellValue.as_number64
    · rw [evaluator_min_error_of values (Or.inl hn)] at hm
      exact absurd hm (by simp)
    · refine ⟨hn, ?_⟩
      intro hf
      rw [evaluator_min_error_of values (Or.inr hf)] at hm
      exact absurd hm (by simp)
  refine ⟨?_, ?_, ?_, ?_, ?_, ?_⟩
  · constructor
    · intro he
      by_contra hcon
      push_neg at hcon
      obtain ⟨hp, hf⟩ := hcon
      cases hfx : values.filterMap CellValue.as_number with
      | nil => exact hf hfx
      | cons x xs =>
        rw [evaluator_max_number_of values hp x xs hfx] at he
        exact absurd he (by simp)
    · exact evaluator_max_error_of values
  · constructor
    · intro he
      by_contra hcon
      push_neg at hcon
      obtain ⟨hn, hf⟩ := hcon
      cases hfx : values.filterMap CellValue.as_number with
      | nil => exact hf hfx
      | cons x xs =>
        rw [evaluator_min_number_of values hn x xs hfx] at he
        exact absurd he (by simp)
    · exact evaluator_min_error_of values
  · intro m hm
    obtain ⟨hp, hf⟩ := hmaxn m hm
    cases hfx : values.filterMap CellValue.as_number with
    | nil => exact absurd hfx hf
    | cons x xs =>
      rw [evaluator_max_number_of values hp x xs hfx] at hm
      simp only [CellValue.Number.injEq] at hm
      subst hm
      constructor
      · rcases foldl_max_mem xs x with h | h
        · rw [h]; exact List.mem_cons_self x xs
        · exact List.mem_cons_of_mem x h
      · intro y hy
        rcases List.mem_cons.1 hy with h | h
        · subst h; exact le_foldl_max xs y
        · exact mem_le_foldl_max xs x y h
  · intro m hm
    obtain ⟨hn, hf⟩ := hminn m hm
    cases hfx : values.filterMap CellValue.as_number with
    | nil => exact absurd hfx hf
    | cons x xs =>
      rw [evaluator_min_number_of values hn x xs hfx] at hm
      simp only [CellValue.Number.injEq] at hm
      subst hm
      constructor
      · rcases foldl_min_mem xs x with h | h
        · rw [h]; exact List.mem_cons_self x xs
        · exact List.mem_cons_of_mem x h
      · intro y hy
        rcases List.mem_cons.1 hy with h | h
        · subst h; exact foldl_min_le xs y
        · exact foldl_min_le_mem xs x y h
  · intro hp hf
    cases hfx : values.filterMap CellValue.as_number with
    | nil => exact absurd hfx hf
    | cons x xs => exact ⟨xs.foldl Max.max x, evaluator_max_number_of values hp x xs hfx⟩
  · intro hn hf
    cases hfx : values.filterMap CellValue.as_number with
    | nil => exact absurd hfx hf
    | cons x xs => exact ⟨xs.foldl Min.min x, evaluator_min_number_of values hn x xs hfx⟩

/-- Witness for C8 at the concrete input `[Number 3]`. -/
theorem c8_max_min_witness :
    (3 : ℚ) ∈ [CellValue.Number 3].filterMap CellValue.as_number ∧
    ∀ x ∈ [CellValue.Number 3].filterMap CellValue.as_number, x ≤ 3 :=
  (c8_max_min [CellValue.Number 3]).2.2.1 3 rfl

/-- C9: `Formula::parse` returns an `InvalidSyntax` error exactly when
the trimmed text does not begin with `=`, and succeeds on every trimmed
text that does begin with `=`. -/
theorem c9_formula_parse (s : List Char) :
    ((Formula.parse s).isOk = true ↔ (trimChars s).head? = some '=') ∧
    ((trimChars s).head? ≠ some '=' →
      Formula.parse s = .error (.InvalidSyntax "Formula must start with =")) := by
  unfold Formula.parse
  by_cases h : (trimChars s).head? = some '='
  · simp [h, Except.isOk, Except.toBool]
  · simp [h, Except.isOk, Except.toBool]

/-- Witness for C9: text without the `=` prefix is rejected with
`InvalidSyntax`, text with it parses. -/
theorem c9_formula_parse_witness :
    Formula.parse "A1+1".toList
      = .error (.InvalidSyntax "Formula must start with =") ∧
    (Formula.parse "=A1+1".toList).isOk = true :=
  ⟨(c9_formula_parse "A1+1".toList).2 (by decide),
   (c9_formula_parse "=A1+1".toList).1.2 (by decide)⟩

theorem isWhitespace_iff (c : Char) :
    c.isWhitespace = true ↔
      c.toNat = 32 ∨ c.toNat = 9 ∨ c.toNat = 13 ∨ c.toNat = 10 := by
  simp only [Char.isWhitespace, Bool.or_eq_true, decide_eq_true_eq, char_eq_iff_toNat]
  rw [show (' ' : Char).toNat = 32 from rfl, show ('\t' : Char).toNat = 9 from rfl,
    show ('\r' : Char).toNat = 13 from rfl, show ('\n' : Char).toNat = 10 from rfl]
  tauto

theorem toLower_ws (c : Char) : (Char.toLower c).isWhitespace = c.isWhitespace := by
  simp only [Char.toLower]
  by_cases h : c.toNat ≥ 65 ∧ c.toNat ≤ 90
  · rw [if_pos h]
    have ht : (Char.ofNat (c.toNat + 32)).toNat = c.toNat + 32 :=
      char_toNat_ofNat (by omega)
    have h1 : (Char.ofNat (c.toNat + 32)).isWhitespace = false := by
      cases hx : (Char.ofNat (c.toNat + 32)).isWhitespace
      · rfl
      · rw [isWhitespace_iff, ht] at hx; omega
    have h2 : c.isWhitespace = false := by
      cases hx : c.isWhitespace
      · rfl
      · rw [isWhitespace_iff] at hx; omega
    rw [h1, h2]
  · rw [if_neg h]

theorem toUpper_toLower (c : Char) : (Char.toLower c).toUpper = c.toUpper := by
  simp only [Char.toLower]
  by_cases h : c.toNat ≥ 65 ∧ c.toNat ≤ 90
  · rw [if_pos h]
    simp only [Char.toUpper]
    have ht : (Char.ofNat (c.toNat + 32)).toNat = c.toNat + 32 :=
      char_toNat_ofNat (by omega)
    have hcond : (Char.ofNat (c.toNat + 32)).toNat ≥ 97 ∧
        (Char.ofNat (c.toNat + 32)).toNat ≤ 122 := by
      rw [ht]; omega
    rw [if_pos hcond, ht, if_neg (by omega : ¬(c.toNat ≥ 97 ∧ c.toNat ≤ 122))]
    rw [show c.toNat + 32 - 32 = c.toNat from by omega, Char.ofNat_toNat]
  · rw [if_neg h]

theorem trimChars_pad {w1 w2 s : List Char}
    (hw1 : ∀ c ∈ w1, c.isWhitespace = true)
    (hw2 : ∀ c ∈ w2, c.isWhitespace = true) :
    trimChars (w1 ++ s ++ w2) = trimChars s := by
  unfold trimChars
  rw [List.append_assoc, List.dropWhile_append_of_pos hw1]
  cases hd : s.dropWhile Char.isWhitespace with
  | nil =>
    have hs : ∀ c ∈ s, c.isWhitespace = true := List.dropWhile_eq_nil_iff.1 hd
    have h2 : (s ++ w2).dropWhile Char.isWhitespace = [] := by
      rw [List.dropWhile_eq_nil_iff]
      intro x hx
      rcases List.mem_append.1 hx with h | h
      · exact hs x h
      · exact hw2 x h
    rw [h2]
  | cons x xs =>
    have h2 : (s ++ w2).dropWhile Char.isWhitespace = (x :: xs) ++ w2 := by
      rw [List.dropWhile_append, hd]
      simp
    rw [h2, List.reverse_append,
      List.dropWhile_append_of_pos (fun c hc => hw2 c (List.mem_reverse.1 hc))]

theorem trimChars_map_toLower (s : List Char) :
    trimChars (s.map Char.toLower) = (trimChars s).map Char.toLower := by
  unfold trimChars
  have hws : (Char.isWhitespace ∘ Char.toLower) = Char.isWhitespace :=
    funext toLower_ws
  rw [List.dropWhile_map, hws, ← List.map_reverse, List.dropWhile_map, hws,
    ← List.map_reverse]

theorem cellref_parse_trim_eq {l l' : List Char} (h : trimChars l = trimChars l') :
    CellRef.parse l = CellRef.parse l' := by
  unfold CellRef.parse
  rw [h]

theorem cellref_parse_toLower (s : List Char) :
    CellRef.parse (s.map Char.toLower) = CellRef.parse s := by
  unfold CellRef.parse
  rw [trimChars_map_toLower, List.map_map,
    show Char.toUpper ∘ Char.toLower = Char.toUpper from funext toUpper_toLower]

theorem splitColon_no_colon {p : List Char} (h : ':' ∉ p) : splitColon p = [p] := by
  induction p with
  | nil => rfl
  | cons c cs ih =>
    have hcne : ¬(c = ':') := by
      intro hc
      subst hc
      exact h (List.mem_cons_self ':' cs)
    simp only [splitColon]
    rw [if_neg hcne, ih (fun hm => h (List.mem_cons_of_mem c hm))]

theorem splitColon_append {p1 p2 : List Char} (h : ':' ∉ p1) :
    splitColon (p1 ++ ':' :: p2) = p1 :: splitColon p2 := by
  induction p1 with
  | nil => simp [splitColon]
  | cons c cs ih =>
    have hcne : ¬(c = ':') := by
      intro hc
      subst hc
      exact h (List.mem_cons_self ':' cs)
    simp only [List.cons_append, splitColon, List.append_eq]
    rw [if_neg hcne, ih (fun hm => h (List.mem_cons_of_mem c hm))]

theorem cellrange_parse_ws {w1 w2 : List Char} (s1 s2 : List Char)
    (hw1 : ∀ c ∈ w1, c.isWhitespace = true)
    (hw2 : ∀ c ∈ w2, c.isWhitespace = true)
    (hc1 : ':' ∉ w1) (hc2 : ':' ∉ w2) (hs1 : ':' ∉ s1) (hs2 : ':' ∉ s2) :
    CellRange.parse ((w1 ++ s1 ++ w2) ++ ':' :: (w1 ++ s2 ++ w2))
      = CellRange.parse (s1 ++ ':' :: s2) := by
  have hno1 : ':' ∉ w1 ++ s1 ++ w2 := by
    intro hm
    rcases List.mem_append.1 hm with hm | hm
    · rcases List.mem_append.1 hm with hm | hm
      exacts [hc1 hm, hs1 hm]
    · exact hc2 hm
  have hno2 : ':' ∉ w1 ++ s2 ++ w2 := by
    intro hm
    rcases List.mem_append.1 hm with hm | hm
    · rcases List.mem_append.1 hm with hm | hm
      exacts [hc1 hm, hs2 hm]
    · exact hc2 hm
  have e1 : CellRange.parse ((w1 ++ s1 ++ w2) ++ ':' :: (w1 ++ s2 ++ w2))
      = (CellRef.parse (w1 ++ s1 ++ w2)).bind fun a =>
          (CellRef.parse (w1 ++ s2 ++ w2)).bind fun b =>
            some (CellRange.new a b) := by
    unfold CellRange.parse
    rw [splitColon_append hno1, splitColon_no_colon hno2]
    rfl
  have e2 : CellRange.parse (s1 ++ ':' :: s2)
      = (CellRef.parse s1).bind fun a =>
          (CellRef.parse s2).bind fun b => some (CellRange.new a b) := by
    unfold CellRange.parse
    rw [splitColon_append hs1, splitColon_no_colon hs2]
    rfl
  rw [e1, e2, cellref_parse_trim_eq (trimChars_pad hw1 hw2),
    cellref_parse_trim_eq (trimChars_pad hw1 hw2)]

/-- C10: `CellRef::parse` trims surrounding whitespace and uppercases its
input before parsing: whitespace padding and lowercasing never change the
result (so `" b3 "` parses to row 2, col 1), and consequently
`CellRange::parse` accepts whitespace around the `:` separator. -/
theorem c10_parse_trim_and_case (s w1 w2 : List Char)
    (hw1 : ∀ c ∈ w1, c.isWhitespace = true)
    (hw2 : ∀ c ∈ w2, c.isWhitespace = true)
    (hc1 : ':' ∉ w1) (hc2 : ':' ∉ w2) :
    CellRef.parse (w1 ++ s ++ w2) = CellRef.parse s ∧
    CellRef.parse (s.map Char.toLower) = CellRef.parse s ∧
    CellRef.parse " b3 ".toList = some (CellRef.new 2 1) ∧
    (∀ s1 s2 : List Char, ':' ∉ s1 → ':' ∉ s2 →
      CellRange.parse ((w1 ++ s1 ++ w2) ++ ':' :: (w1 ++ s2 ++ w2))
        = CellRange.parse (s1 ++ ':' :: s2)) :=
  ⟨cellref_parse_trim_eq (trimChars_pad hw1 hw2),
   cellref_parse_toLower s,
   by decide,
   fun s1 s2 hs1 hs2 => cellrange_parse_ws s1 s2 hw1 hw2 hc1 hc2 hs1 hs2⟩

/-- Witness for C10 with concrete whitespace padding. -/
theorem c10_parse_trim_and_case_witness :
    CellRef.parse ([' '] ++ "b3".toList ++ [' ']) = CellRef.parse "b3".toList ∧
    CellRange.parse (([' '] ++ "A1".toList ++ [' ']) ++ ':' ::
        ([' '] ++ "C5".toList ++ [' ']))
      = CellRange.parse ("A1".toList ++ ':' :: "C5".toList) :=
  ⟨(c10_parse_trim_and_case "b3".toList [' '] [' ']
      (by decide) (by decide) (by decide) (by decide)).1,
   (c10_parse_trim_and_case "b3".toList [' '] [' ']
      (by decide) (by decide) (by decide) (by decide)).2.2.2
     "A1".toList "C5".toList (by decide) (by decide)⟩

theorem topoSort_succ (deps : CellRef → List CellRef) (fuel : Nat)
    (rem : List CellRef) :
    topoSort deps (fuel + 1) rem =
      match pickReady deps rem with
      | none => ([], rem)
      | some n =>
        let (ord, res) := topoSort deps fuel (rem.erase n)
        (n :: ord, res) := rfl

/-- C4: when two formula cells reference each other, the recomputation
pass — total by construction, hence terminating — consumes neither: both
cells land in the unresolved residual set, are set to
`CellValue::Error("circular-reference")`, and are never evaluated (the
evaluation order is empty). -/
theorem c4_mutual_cycle (a b : CellRef) (evalCell : CellRef → CellValue)
    (state : CellRef → CellValue) (h : a ≠ b) :
    ((recompute (fun r => if r = a then [b] else if r = b then [a] else [])
        evalCell state [a, b]).1 a = CellValue.Error "circular-reference") ∧
    ((recompute (fun r => if r = a then [b] else if r = b then [a] else [])
        evalCell state [a, b]).1 b = CellValue.Error "circular-reference") ∧
    (recompute (fun r => if r = a then [b] else if r = b then [a] else [])
        evalCell state [a, b]).2 = [] := by
  have ha : a ∈ [a, b] := List.mem_cons_self a [b]
  have hb : b ∈ [a, b] := List.mem_cons_of_mem a (List.mem_cons_self b [])
  have hpick :
      pickReady (fun r => if r = a then [b] else if r = b then [a] else [])
        [a, b] = none := by
    unfold pickReady
    rw [List.find?_cons_of_neg, List.find?_cons_of_neg, List.find?_nil]
    · simp [Ne.symm h, ha]
    · simp [hb]
  have htopo :
      topoSort (fun r => if r = a then [b] else if r = b then [a] else [])
        [a, b].length [a, b] = ([], [a, b]) := by
    show topoSort _ (1 + 1) [a, b] = ([], [a, b])
    rw [topoSort_succ, hpick]
  unfold recompute
  rw [htopo]
  simp only [List.foldl_nil, List.foldl_cons]
  refine ⟨?_, ?_, by trivial⟩
  · simp [h]
  · simp

/-- Witness for C4 at the concrete mutually-referencing cells A1 (0,0)
and B1 (0,1). -/
theorem c4_mutual_cycle_witness :
    ((recompute
        (fun r => if r = CellRef.new 0 0 then [CellRef.new 0 1]
          else if r = CellRef.new 0 1 then [CellRef.new 0 0] else [])
        (fun _ => CellValue.Empty) (fun _ => CellValue.Empty)
        [CellRef.new 0 0, CellRef.new 0 1]).1 (CellRef.new 0 0)
      = CellValue.Error "circular-reference") ∧
    ((recompute
        (fun r => if r = CellRef.new 0 0 then [CellRef.new 0 1]
          else if r = CellRef.new 0 1 then [CellRef.new 0 0] else [])
        (fun _ => CellValue.Empty) (fun _ => CellValue.Empty)
        [CellRef.new 0 0, CellRef.new 0 1]).1 (CellRef.new 0 1)
      = CellValue.Error "circular-reference") ∧
    (recompute
        (fun r => if r = CellRef.new 0 0 then [CellRef.new 0 1]
          else if r = CellRef.new 0 1 then [CellRef.new 0 0] else [])
        (fun _ => CellValue.Empty) (fun _ => CellValue.Empty)
        [CellRef.new 0 0, CellRef.new 0 1]).2 = [] :=
  c4_mutual_cycle (CellRef.new 0 0) (CellRef.new 0 1)
    (fun _ => CellValue.Empty) (fun _ => CellValue.Empty) (by decide)

end Wolia
